import Mathlib

/-!
Verification of the noise autocorrelation demonstration.

The repository's only executable logic is the call
`np.correlate(noise, noise, mode='full')` applied to a generated noise
signal.  We embed NumPy's full-mode discrete cross-correlation over
rational-valued sample sequences: out-of-range positions contribute
nothing (modelled by zero-padded integer indexing), the output has
length `n + m - 1`, and an empty input is rejected with a ValueError,
as NumPy does.  `full_autocorrelation` is the operation the notebook
performs: correlating the signal with itself in full mode.
-/

namespace NoiseACF

/-- Zero-padded indexing of a sample sequence by an integer position:
positions outside `[0, length)` read as `0`, so that sliding-window
sums only pick up products of genuinely overlapping samples. -/
def getZ (s : List ℚ) (i : ℤ) : ℚ :=
  if 0 ≤ i ∧ i < (s.length : ℤ) then s.getD i.toNat 0 else 0

/-- Entry `j` of the full-mode cross-correlation of `a` with `v`
(the value NumPy places at output position `j`):
`c[j] = Σ_i a[i] · v[i + (m-1) - j]`, the sliding-window sum of
products, where `m = v.length` and out-of-range factors vanish. -/
def correlateEntry (a v : List ℚ) (j : ℕ) : ℚ :=
  ∑ i in Finset.range a.length,
    a.getD i 0 * getZ v ((i : ℤ) + ((v.length : ℤ) - 1 - (j : ℤ)))

/-- Model of `np.correlate(a, v, mode='full')`: a ValueError on an
empty input, otherwise the length `n + m - 1` sequence of
sliding-window sums over all offsets with any overlap. -/
def np_correlate_full (a v : List ℚ) : Except String (List ℚ) :=
  if a.length = 0 ∨ v.length = 0 then
    Except.error "ValueError: correlate input sequences cannot be empty"
  else
    Except.ok ((List.range (a.length + v.length - 1)).map (correlateEntry a v))

/-- The operation the notebook performs on the generated signal:
`np.correlate(noise, noise, mode='full')`, the signal correlated with
itself in full mode, with no normalization and no mean subtraction. -/
def full_autocorrelation (s : List ℚ) : Except String (List ℚ) :=
  np_correlate_full s s

/-- The raw lag-`k` sum `Σ_i s[i] · s[i+k]`, the sum running over the
index pairs where both positions are valid (others read as `0`). -/
def lagSum (s : List ℚ) (k : ℤ) : ℚ :=
  ∑ i in Finset.range s.length, s.getD i 0 * getZ s ((i : ℤ) + k)

/-- Full discrete convolution of two sequences: entry `j` is
`Σ_i a[i] · b[j-i]`, over all offsets with any overlap.  Stated from
the spec's words, for comparison with the correlation operation. -/
def convolve_full (a b : List ℚ) : List ℚ :=
  (List.range (a.length + b.length - 1)).map
    (fun (j : ℕ) => ∑ i in Finset.range a.length, a.getD i 0 * getZ b ((j : ℤ) - (i : ℤ)))

/-- On a nonempty signal the operation succeeds and returns the
`2n - 1` sliding-window sums. -/
lemma full_autocorrelation_ok (s : List ℚ) (h : s ≠ []) :
    full_autocorrelation s
      = Except.ok ((List.range (2 * s.length - 1)).map (correlateEntry s s)) := by
  have hlen : s.length ≠ 0 := fun h0 => h (List.length_eq_zero.mp h0)
  unfold full_autocorrelation np_correlate_full
  rw [if_neg (by simp [hlen])]
  have h2 : s.length + s.length - 1 = 2 * s.length - 1 := by omega
  rw [h2]

/-- Each output entry of the self-correlation is a raw lag sum. -/
lemma correlateEntry_self_eq_lagSum (s : List ℚ) (j : ℕ) :
    correlateEntry s s j = lagSum s ((s.length : ℤ) - 1 - (j : ℤ)) := rfl

/-- Reading position `m` of the output list yields the corresponding
sliding-window sum. -/
lemma getD_map_range (N : ℕ) (f : ℕ → ℚ) (m : ℕ) (h : m < N) :
    ((List.range N).map f).getD m 0 = f m := by
  rw [List.getD_eq_getElem?_getD, List.getElem?_map, List.getElem?_range h]
  rfl

/-- A sum of an indicator over a range of naturals cast to integers
collapses to the single matching term, when there is one. -/
lemma sum_ite_int (n : ℕ) (c : ℤ) (x : ℚ) :
    (∑ j in Finset.range n, if (j : ℤ) = c then x else 0)
      = if 0 ≤ c ∧ c < (n : ℤ) then x else 0 := by
  by_cases h : 0 ≤ c ∧ c < (n : ℤ)
  · rw [if_pos h]
    have hmem : c.toNat ∈ Finset.range n := Finset.mem_range.mpr (by omega)
    rw [Finset.sum_eq_single c.toNat]
    · rw [if_pos (by omega)]
    · intro b _ hb
      rw [if_neg (by omega)]
    · intro hc
      exact absurd hmem hc
  · rw [if_neg h]
    apply Finset.sum_eq_zero
    intro j hj
    have := Finset.mem_range.mp hj
    rw [if_neg (by omega)]

/-- Applying a zero-preserving function to a zero-padded read expands
into an indicator sum over the genuine positions of the list. -/
lemma apply_getZ_eq_sum (s : List ℚ) (c : ℤ) (g : ℚ → ℚ) (hg : g 0 = 0) :
    g (getZ s c)
      = ∑ j in Finset.range s.length, if (j : ℤ) = c then g (s.getD j 0) else 0 := by
  unfold getZ
  by_cases h : 0 ≤ c ∧ c < (s.length : ℤ)
  · rw [if_pos h]
    have hmem : c.toNat ∈ Finset.range s.length := Finset.mem_range.mpr (by omega)
    rw [Finset.sum_eq_single c.toNat]
    · rw [if_pos (by omega)]
    · intro b _ hb
      rw [if_neg (by omega)]
    · intro hc
      exact absurd hmem hc
  · rw [if_neg h, hg]
    symm
    apply Finset.sum_eq_zero
    intro j hj
    have := Finset.mem_range.mp hj
    rw [if_neg (by omega)]

/-- The raw lag sum is unchanged by negating the lag: correlating the
signal with itself is symmetric in the direction of the shift. -/
lemma lagSum_neg (s : List ℚ) (k : ℤ) : lagSum s (-k) = lagSum s k := by
  unfold lagSum
  have expand : ∀ c : ℤ, ∀ i : ℕ,
      s.getD i 0 * getZ s c
        = ∑ j in Finset.range s.length,
            if (j : ℤ) = c then s.getD i 0 * s.getD j 0 else 0 := by
    intro c i
    have := apply_getZ_eq_sum s c (fun t => s.getD i 0 * t) (by ring)
    simpa using this
  calc
    ∑ i in Finset.range s.length, s.getD i 0 * getZ s ((i : ℤ) + -k)
        = ∑ i in Finset.range s.length, ∑ j in Finset.range s.length,
            if (j : ℤ) = (i : ℤ) + -k then s.getD i 0 * s.getD j 0 else 0 := by
          exact Finset.sum_congr rfl fun i _ => expand ((i : ℤ) + -k) i
    _ = ∑ i in Finset.range s.length, ∑ j in Finset.range s.length,
            if (i : ℤ) = (j : ℤ) + k then s.getD i 0 * s.getD j 0 else 0 := by
          apply Finset.sum_congr rfl
          intro i _
          apply Finset.sum_congr rfl
          intro j _
          have hiff : ((j : ℤ) = (i : ℤ) + -k) ↔ ((i : ℤ) = (j : ℤ) + k) := by omega
          simp only [hiff]
    _ = ∑ j in Finset.range s.length, ∑ i in Finset.range s.length,
            if (i : ℤ) = (j : ℤ) + k then s.getD i 0 * s.getD j 0 else 0 :=
          Finset.sum_comm
    _ = ∑ j in Finset.range s.length, s.getD j 0 * getZ s ((j : ℤ) + k) := by
          apply Finset.sum_congr rfl
          intro j _
          rw [expand ((j : ℤ) + k) j]
          apply Finset.sum_congr rfl
          intro i _
          by_cases hij : (i : ℤ) = (j : ℤ) + k
          · rw [if_pos hij, if_pos hij, mul_comm]
          · rw [if_neg hij, if_neg hij]

/-- The zero-lag sum is the sum of the squared samples. -/
lemma lagSum_zero (s : List ℚ) :
    lagSum s 0 = ∑ i in Finset.range s.length, (s.getD i 0) ^ 2 := by
  unfold lagSum
  apply Finset.sum_congr rfl
  intro i hi
  have hi' := Finset.mem_range.mp hi
  have harg : (i : ℤ) + 0 = (i : ℤ) := by ring
  rw [harg]
  unfold getZ
  rw [if_pos (by omega), Int.toNat_ofNat]
  ring

/-- The squared zero-padded reads at any fixed shift are dominated by
the squared samples themselves: each genuine sample is read at most
once. -/
lemma sum_sq_getZ_le (s : List ℚ) (k : ℤ) :
    ∑ i in Finset.range s.length, (getZ s ((i : ℤ) + k)) ^ 2
      ≤ ∑ j in Finset.range s.length, (s.getD j 0) ^ 2 := by
  have expand : ∀ i : ℕ, (getZ s ((i : ℤ) + k)) ^ 2
      = ∑ j in Finset.range s.length,
          if (j : ℤ) = (i : ℤ) + k then (s.getD j 0) ^ 2 else 0 := by
    intro i
    have := apply_getZ_eq_sum s ((i : ℤ) + k) (fun t => t ^ 2) (by norm_num)
    simpa using this
  calc
    ∑ i in Finset.range s.length, (getZ s ((i : ℤ) + k)) ^ 2
        = ∑ i in Finset.range s.length, ∑ j in Finset.range s.length,
            if (j : ℤ) = (i : ℤ) + k then (s.getD j 0) ^ 2 else 0 :=
          Finset.sum_congr rfl fun i _ => expand i
    _ = ∑ j in Finset.range s.length, ∑ i in Finset.range s.length,
            if (j : ℤ) = (i : ℤ) + k then (s.getD j 0) ^ 2 else 0 :=
          Finset.sum_comm
    _ ≤ ∑ j in Finset.range s.length, (s.getD j 0) ^ 2 := by
          apply Finset.sum_le_sum
          intro j _
          have hiff : ∀ i : ℕ, ((j : ℤ) = (i : ℤ) + k) ↔ ((i : ℤ) = (j : ℤ) - k) := by
            intro i
            omega
          calc
            (∑ i in Finset.range s.length,
                if (j : ℤ) = (i : ℤ) + k then (s.getD j 0) ^ 2 else 0)
                = ∑ i in Finset.range s.length,
                    if (i : ℤ) = (j : ℤ) - k then (s.getD j 0) ^ 2 else 0 := by
                  apply Finset.sum_congr rfl
                  intro i _
                  simp only [hiff]
            _ = if 0 ≤ (j : ℤ) - k ∧ (j : ℤ) - k < (s.length : ℤ)
                  then (s.getD j 0) ^ 2 else 0 := sum_ite_int _ _ _
            _ ≤ (s.getD j 0) ^ 2 := by
                  by_cases hcase : 0 ≤ (j : ℤ) - k ∧ (j : ℤ) - k < (s.length : ℤ)
                  · rw [if_pos hcase]
                  · rw [if_neg hcase]
                    exact sq_nonneg _

/-- Cauchy–Schwarz bound: every raw lag sum is dominated in magnitude
by the zero-lag sum. -/
lemma abs_lagSum_le (s : List ℚ) (k : ℤ) : |lagSum s k| ≤ lagSum s 0 := by
  rw [lagSum_zero]
  have hA0 : 0 ≤ ∑ i in Finset.range s.length, (s.getD i 0) ^ 2 :=
    Finset.sum_nonneg fun i _ => sq_nonneg _
  have h1 : (lagSum s k) ^ 2
      ≤ (∑ i in Finset.range s.length, (s.getD i 0) ^ 2)
          * ∑ i in Finset.range s.length, (getZ s ((i : ℤ) + k)) ^ 2 :=
    Finset.sum_mul_sq_le_sq_mul_sq (Finset.range s.length)
      (fun i => s.getD i 0) (fun i => getZ s ((i : ℤ) + k))
  have h3 : (lagSum s k) ^ 2 ≤ (∑ i in Finset.range s.length, (s.getD i 0) ^ 2) ^ 2 := by
    calc
      (lagSum s k) ^ 2
          ≤ (∑ i in Finset.range s.length, (s.getD i 0) ^ 2)
              * ∑ i in Finset.range s.length, (getZ s ((i : ℤ) + k)) ^ 2 := h1
      _ ≤ (∑ i in Finset.range s.length, (s.getD i 0) ^ 2)
              * ∑ i in Finset.range s.length, (s.getD i 0) ^ 2 :=
            mul_le_mul_of_nonneg_left (sum_sq_getZ_le s k) hA0
      _ = (∑ i in Finset.range s.length, (s.getD i 0) ^ 2) ^ 2 := (sq _).symm
  exact abs_le_of_sq_le_sq h3 hA0

/-- Zero-padded reads of the reversed signal are mirrored reads of the
signal itself. -/
lemma getZ_reverse (s : List ℚ) (c : ℤ) :
    getZ s.reverse c = getZ s ((s.length : ℤ) - 1 - c) := by
  unfold getZ
  rw [List.length_reverse]
  by_cases h : 0 ≤ c ∧ c < (s.length : ℤ)
  · rw [if_pos h, if_pos (by omega)]
    have hc : c.toNat < s.length := by omega
    rw [List.getD_eq_getElem?_getD, List.getD_eq_getElem?_getD,
        List.getElem?_reverse hc]
    have hidx : s.length - 1 - c.toNat = ((s.length : ℤ) - 1 - c).toNat := by omega
    rw [hidx]
  · rw [if_neg h, if_neg (by omega)]

/-- Reading any valid output position of the self-correlation yields
the raw lag sum at the corresponding lag. -/
lemma autocorr_getD (s : List ℚ) (h : s ≠ []) (m : ℕ) (hm : m < 2 * s.length - 1)
    (c : List ℚ) (hc : full_autocorrelation s = Except.ok c) :
    c.getD m 0 = lagSum s ((s.length : ℤ) - 1 - (m : ℤ)) := by
  rw [full_autocorrelation_ok s h] at hc
  simp only [Except.ok.injEq] at hc
  rw [← hc, getD_map_range _ _ _ hm, correlateEntry_self_eq_lagSum]

/-- Concrete evaluation of the operation on the sample signal
`[1, 2, 3]`. -/
lemma autocorr_example_eval :
    full_autocorrelation [1, 2, 3] = Except.ok [3, 8, 14, 8, 3] := by
  unfold full_autocorrelation np_correlate_full correlateEntry getZ
  norm_num [List.range_succ, Finset.sum_range_succ, Int.toNat]

/-- C1: for every signal `s` of length `n ≥ 1` and every lag
`k ∈ [-(n-1), n-1]`, entry `c[n-1+k]` of the full autocorrelation is
the raw sum `Σ_i s[i]·s[i+k]` over all valid index pairs — no
normalization (no division by `n` or the variance) and no mean
subtraction. -/
theorem full_autocorrelation_lag_formula (s c : List ℚ) (k : ℤ)
    (hn : 1 ≤ s.length) (hc : full_autocorrelation s = Except.ok c)
    (hk1 : -((s.length : ℤ) - 1) ≤ k) (hk2 : k ≤ (s.length : ℤ) - 1) :
    c.getD ((s.length : ℤ) - 1 + k).toNat 0
      = ∑ i in Finset.range s.length, s.getD i 0 * getZ s ((i : ℤ) + k) := by
  have hne : s ≠ [] := by
    intro h0
    rw [h0] at hn
    simp at hn
  have hm : ((s.length : ℤ) - 1 + k).toNat < 2 * s.length - 1 := by omega
  rw [autocorr_getD s hne _ hm c hc]
  have harg : (s.length : ℤ) - 1 - ((((s.length : ℤ) - 1 + k).toNat : ℕ) : ℤ) = -k := by
    omega
  rw [harg, lagSum_neg]
  rfl

/-- Witness for C1 at signal `[1, 2, 3]`, lag `1`. -/
theorem full_autocorrelation_lag_formula_witness :
    1 ≤ ([1, 2, 3] : List ℚ).length
    ∧ full_autocorrelation [1, 2, 3] = Except.ok [3, 8, 14, 8, 3]
    ∧ -((([1, 2, 3] : List ℚ).length : ℤ) - 1) ≤ (1 : ℤ)
    ∧ (1 : ℤ) ≤ (([1, 2, 3] : List ℚ).length : ℤ) - 1
    ∧ ([3, 8, 14, 8, 3] : List ℚ).getD
          ((([1, 2, 3] : List ℚ).length : ℤ) - 1 + 1).toNat 0
        = ∑ i in Finset.range ([1, 2, 3] : List ℚ).length,
            ([1, 2, 3] : List ℚ).getD i 0 * getZ [1, 2, 3] ((i : ℤ) + 1) :=
  ⟨by norm_num, autocorr_example_eval, by norm_num, by norm_num,
    full_autocorrelation_lag_formula [1, 2, 3] [3, 8, 14, 8, 3] 1
      (by norm_num) autocorr_example_eval (by norm_num) (by norm_num)⟩

/-- C2: for every input of length `n ≥ 1`, the full autocorrelation
succeeds with a sequence of length exactly `2n - 1`. -/
theorem full_autocorrelation_length (s c : List ℚ)
    (hn : 1 ≤ s.length) (hc : full_autocorrelation s = Except.ok c) :
    c.length = 2 * s.length - 1 := by
  have hne : s ≠ [] := by
    intro h0
    rw [h0] at hn
    simp at hn
  rw [full_autocorrelation_ok s hne] at hc
  simp only [Except.ok.injEq] at hc
  rw [← hc]
  simp

/-- Witness for C2 at signal `[1, 2, 3]`. -/
theorem full_autocorrelation_length_witness :
    1 ≤ ([1, 2, 3] : List ℚ).length
    ∧ full_autocorrelation [1, 2, 3] = Except.ok [3, 8, 14, 8, 3]
    ∧ ([3, 8, 14, 8, 3] : List ℚ).length = 2 * ([1, 2, 3] : List ℚ).length - 1 :=
  ⟨by norm_num, autocorr_example_eval,
    full_autocorrelation_length [1, 2, 3] [3, 8, 14, 8, 3]
      (by norm_num) autocorr_example_eval⟩

/-- C3: the full autocorrelation is symmetric about the zero-lag
entry: `c[n-1+k] = c[n-1-k]` for every valid lag `k`. -/
theorem full_autocorrelation_symmetric (s c : List ℚ) (k : ℤ)
    (hn : 1 ≤ s.length) (hc : full_autocorrelation s = Except.ok c)
    (hk1 : -((s.length : ℤ) - 1) ≤ k) (hk2 : k ≤ (s.length : ℤ) - 1) :
    c.getD ((s.length : ℤ) - 1 + k).toNat 0
      = c.getD ((s.length : ℤ) - 1 - k).toNat 0 := by
  have hne : s ≠ [] := by
    intro h0
    rw [h0] at hn
    simp at hn
  have hm1 : ((s.length : ℤ) - 1 + k).toNat < 2 * s.length - 1 := by omega
  have hm2 : ((s.length : ℤ) - 1 - k).toNat < 2 * s.length - 1 := by omega
  rw [autocorr_getD s hne _ hm1 c hc, autocorr_getD s hne _ hm2 c hc]
  have h1 : (s.length : ℤ) - 1 - ((((s.length : ℤ) - 1 + k).toNat : ℕ) : ℤ) = -k := by
    omega
  have h2 : (s.length : ℤ) - 1 - ((((s.length : ℤ) - 1 - k).toNat : ℕ) : ℤ) = k := by
    omega
  rw [h1, h2, lagSum_neg]

/-- Witness for C3 at signal `[1, 2, 3]`, lag `2`. -/
theorem full_autocorrelation_symmetric_witness :
    1 ≤ ([1, 2, 3] : List ℚ).length
    ∧ full_autocorrelation [1, 2, 3] = Except.ok [3, 8, 14, 8, 3]
    ∧ -((([1, 2, 3] : List ℚ).length : ℤ) - 1) ≤ (2 : ℤ)
    ∧ (2 : ℤ) ≤ (([1, 2, 3] : List ℚ).length : ℤ) - 1
    ∧ ([3, 8, 14, 8, 3] : List ℚ).getD
          ((([1, 2, 3] : List ℚ).length : ℤ) - 1 + 2).toNat 0
        = ([3, 8, 14, 8, 3] : List ℚ).getD
            ((([1, 2, 3] : List ℚ).length : ℤ) - 1 - 2).toNat 0 :=
  ⟨by norm_num, autocorr_example_eval, by norm_num, by norm_num,
    full_autocorrelation_symmetric [1, 2, 3] [3, 8, 14, 8, 3] 2
      (by norm_num) autocorr_example_eval (by norm_num) (by norm_num)⟩

/-- C4: for a signal of nonzero variance (two samples differ), the
maximum-magnitude entry of the full autocorrelation is at index
`n - 1` (zero lag): `|c[j]| ≤ |c[n-1]|` for every valid index `j`. -/
theorem full_autocorrelation_peak (s c : List ℚ) (j : ℕ)
    (hn : 1 ≤ s.length)
    (_hvar : ∃ a ∈ s, ∃ b ∈ s, a ≠ b)
    (hc : full_autocorrelation s = Except.ok c)
    (hj : j < c.length) :
    |c.getD j 0| ≤ |c.getD (s.length - 1) 0| := by
  have hne : s ≠ [] := by
    intro h0
    rw [h0] at hn
    simp at hn
  have hc' := hc
  rw [full_autocorrelation_ok s hne] at hc'
  simp only [Except.ok.injEq] at hc'
  have hlen : c.length = 2 * s.length - 1 := by
    rw [← hc']
    simp
  have hj' : j < 2 * s.length - 1 := by omega
  have hm2 : s.length - 1 < 2 * s.length - 1 := by omega
  rw [autocorr_getD s hne j hj' c hc, autocorr_getD s hne (s.length - 1) hm2 c hc]
  have hzero : (s.length : ℤ) - 1 - (((s.length - 1 : ℕ) : ℕ) : ℤ) = 0 := by omega
  rw [hzero]
  have h0 : 0 ≤ lagSum s 0 := by
    rw [lagSum_zero]
    exact Finset.sum_nonneg fun i _ => sq_nonneg _
  rw [abs_of_nonneg h0]
  exact abs_lagSum_le s _

/-- Witness for C4 at signal `[1, 2, 3]`, index `0`. -/
theorem full_autocorrelation_peak_witness :
    1 ≤ ([1, 2, 3] : List ℚ).length
    ∧ (∃ a ∈ ([1, 2, 3] : List ℚ), ∃ b ∈ ([1, 2, 3] : List ℚ), a ≠ b)
    ∧ full_autocorrelation [1, 2, 3] = Except.ok [3, 8, 14, 8, 3]
    ∧ 0 < ([3, 8, 14, 8, 3] : List ℚ).length
    ∧ |([3, 8, 14, 8, 3] : List ℚ).getD 0 0|
        ≤ |([3, 8, 14, 8, 3] : List ℚ).getD (([1, 2, 3] : List ℚ).length - 1) 0| :=
  ⟨by norm_num, ⟨1, by norm_num, 2, by norm_num, by norm_num⟩,
    autocorr_example_eval, by norm_num,
    full_autocorrelation_peak [1, 2, 3] [3, 8, 14, 8, 3] 0
      (by norm_num) ⟨1, by norm_num, 2, by norm_num, by norm_num⟩
      autocorr_example_eval (by norm_num)⟩

/-- C5: the signal `[1, 2, 3]` has full autocorrelation exactly
`[3, 8, 14, 8, 3]`. -/
theorem full_autocorrelation_example :
    full_autocorrelation [1, 2, 3] = Except.ok [3, 8, 14, 8, 3] :=
  autocorr_example_eval

/-- C6: for a single-element signal `[x]`, the full autocorrelation is
the single-element sequence `[x²]`. -/
theorem full_autocorrelation_singleton (x : ℚ) :
    full_autocorrelation [x] = Except.ok [x ^ 2] := by
  unfold full_autocorrelation np_correlate_full correlateEntry getZ
  norm_num [List.range_succ, Finset.sum_range_succ, Int.toNat]
  ring

/-- C7: the operation is a pure function of its input — equal inputs
yield identical outputs, and there is no other state to affect. -/
theorem full_autocorrelation_pure (s t : List ℚ) (h : s = t) :
    full_autocorrelation s = full_autocorrelation t := by
  rw [h]

/-- Witness for C7 at signal `[1, 2, 3]`. -/
theorem full_autocorrelation_pure_witness :
    ([1, 2, 3] : List ℚ) = [1, 2, 3]
    ∧ full_autocorrelation [1, 2, 3] = full_autocorrelation [1, 2, 3] :=
  ⟨rfl, full_autocorrelation_pure [1, 2, 3] [1, 2, 3] rfl⟩

/-- C8: the full-mode self-correlation equals the full discrete
convolution of the signal with its time-reversed copy. -/
theorem full_autocorrelation_eq_convolve_reverse (s : List ℚ) (hn : 1 ≤ s.length) :
    full_autocorrelation s = Except.ok (convolve_full s s.reverse) := by
  have hne : s ≠ [] := by
    intro h0
    rw [h0] at hn
    simp at hn
  rw [full_autocorrelation_ok s hne]
  unfold convolve_full
  simp only [List.length_reverse]
  have h2 : s.length + s.length - 1 = 2 * s.length - 1 := by omega
  rw [h2]
  congr 1
  apply List.map_congr_left
  intro j _
  unfold correlateEntry
  apply Finset.sum_congr rfl
  intro i _
  rw [getZ_reverse]
  have harg : (s.length : ℤ) - 1 - ((j : ℤ) - (i : ℤ))
      = (i : ℤ) + ((s.length : ℤ) - 1 - (j : ℤ)) := by ring
  rw [harg]

/-- Witness for C8 at signal `[1, 2, 3]`. -/
theorem full_autocorrelation_eq_convolve_reverse_witness :
    1 ≤ ([1, 2, 3] : List ℚ).length
    ∧ full_autocorrelation [1, 2, 3]
        = Except.ok (convolve_full [1, 2, 3] ([1, 2, 3] : List ℚ).reverse) :=
  ⟨by norm_num,
    full_autocorrelation_eq_convolve_reverse [1, 2, 3] (by norm_num)⟩

/-- C9: the zero-lag entry `c[n-1]` is the sum of the squared samples,
hence nonnegative, and it vanishes exactly when every sample is zero. -/
theorem full_autocorrelation_zero_lag (s c : List ℚ)
    (hn : 1 ≤ s.length) (hc : full_autocorrelation s = Except.ok c) :
    c.getD (s.length - 1) 0 = ∑ i in Finset.range s.length, (s.getD i 0) ^ 2
    ∧ 0 ≤ c.getD (s.length - 1) 0
    ∧ (c.getD (s.length - 1) 0 = 0 ↔ ∀ x ∈ s, x = 0) := by
  have hne : s ≠ [] := by
    intro h0
    rw [h0] at hn
    simp at hn
  have hm : s.length - 1 < 2 * s.length - 1 := by omega
  have he : c.getD (s.length - 1) 0
      = ∑ i in Finset.range s.length, (s.getD i 0) ^ 2 := by
    rw [autocorr_getD s hne _ hm c hc]
    have hzero : (s.length : ℤ) - 1 - (((s.length - 1 : ℕ) : ℕ) : ℤ) = 0 := by omega
    rw [hzero, lagSum_zero]
  refine ⟨he, ?_, ?_⟩
  · rw [he]
    exact Finset.sum_nonneg fun i _ => sq_nonneg _
  · rw [he, Finset.sum_eq_zero_iff_of_nonneg fun i _ => sq_nonneg _]
    constructor
    · intro hall x hx
      obtain ⟨i, hi, rfl⟩ := List.mem_iff_getElem.mp hx
      have h2 := hall i (Finset.mem_range.mpr hi)
      have h3 : s.getD i 0 = s[i] := by
        rw [List.getD_eq_getElem?_getD, List.getElem?_eq_getElem hi]
        rfl
      rw [h3] at h2
      exact sq_eq_zero_iff.mp h2
    · intro hall i hi
      have hi' := Finset.mem_range.mp hi
      have h3 : s.getD i 0 = s[i] := by
        rw [List.getD_eq_getElem?_getD, List.getElem?_eq_getElem hi']
        rfl
      rw [h3, hall s[i] (List.getElem_mem hi')]
      norm_num

/-- Witness for C9 at signal `[1, 2, 3]`. -/
theorem full_autocorrelation_zero_lag_witness :
    1 ≤ ([1, 2, 3] : List ℚ).length
    ∧ full_autocorrelation [1, 2, 3] = Except.ok [3, 8, 14, 8, 3]
    ∧ (([3, 8, 14, 8, 3] : List ℚ).getD (([1, 2, 3] : List ℚ).length - 1) 0
          = ∑ i in Finset.range ([1, 2, 3] : List ℚ).length,
              (([1, 2, 3] : List ℚ).getD i 0) ^ 2
        ∧ 0 ≤ ([3, 8, 14, 8, 3] : List ℚ).getD (([1, 2, 3] : List ℚ).length - 1) 0
        ∧ (([3, 8, 14, 8, 3] : List ℚ).getD (([1, 2, 3] : List ℚ).length - 1) 0 = 0
            ↔ ∀ x ∈ ([1, 2, 3] : List ℚ), x = 0)) :=
  ⟨by norm_num, autocorr_example_eval,
    full_autocorrelation_zero_lag [1, 2, 3] [3, 8, 14, 8, 3]
      (by norm_num) autocorr_example_eval⟩

/-- C10: on the empty input the operation does not produce a result
sequence; it fails with NumPy's invalid-argument (ValueError) report,
and, being a pure function, touches no other state. -/
theorem full_autocorrelation_empty :
    full_autocorrelation ([] : List ℚ)
      = Except.error "ValueError: correlate input sequences cannot be empty" := by
  unfold full_autocorrelation np_correlate_full
  norm_num

end NoiseACF
